import Mathlib

/-
  Shallow embedding of src/winrandom.c (Python extension module exposing
  CryptGenRandom).  The three entry points winrandom_range, winrandom_bytes
  and winrandom_long are modelled as pure functions over an explicit
  entropy-source environment; each model also records how many times the
  call acquired (CryptAcquireContext) and released (CryptReleaseContext)
  a provider handle, so that handle-lifecycle properties are statable.
-/

/-- Width in bits of the C type `unsigned long` on the target platform
(Windows, where `long` is 32-bit). -/
def ULONG_WIDTH : Nat := 32

/-- The value of `sizeof(unsigned long)` in bytes, as used by `winrandom_long`
(`CryptGenRandom(hProv, sizeof(pbRandomData), ...)`, winrandom.c line 176). -/
def sizeofUnsignedLong : Nat := ULONG_WIDTH / 8

/-- Model of `PyArg_ParseTuple(args, "l", &r)` with `r` declared `unsigned long`
(winrandom.c lines 66-69): the parsed signed long is reinterpreted in
twos-complement as an unsigned 32-bit value. -/
def toULong (m : Int) : Nat := (m % (2 ^ ULONG_WIDTH)).toNat

deriving instance DecidableEq for Except

/-- The error outcomes the module raises (winrandom.c: the messages passed to
`error_out` / `PyErr_SetString`). -/
inductive WinErr where
  | invalidRange
  | sourceUnavailable
  | generationFailed
  | entropyTestFailed
  | memoryError
  deriving DecidableEq

/-- Environment modelling the Windows CryptoAPI entropy source.
`aesOk` / `fullOk` tell whether `CryptAcquireContext` succeeds for
PROV_RSA_AES resp. the PROV_RSA_FULL fallback; `fillOk k` tells whether the
k-th `CryptGenRandom` call of the current entry point succeeds; `byte i` is
the i-th byte of the random stream the source would deliver. -/
structure Entropy where
  aesOk : Bool
  fullOk : Bool
  fillOk : Nat → Bool
  byte : Nat → Nat

/-- The acquisition step shared by all three entry points: try PROV_RSA_AES
first, then fall back to PROV_RSA_FULL (winrandom.c lines 80-86). -/
def Entropy.acquireOk (e : Entropy) : Bool := e.aesOk || e.fullOk

/-- Model of `CryptGenRandom(hProv, t, (BYTE *) &c)` into a zeroed `unsigned long c`:
the t fetched bytes land in the low-order positions, little-endian, and the
remaining high-order bytes of `c` stay zero (winrandom.c lines 96-104). -/
def leDecode (src : Nat → Nat) (pos : Nat) : Nat → Nat
  | 0 => 0
  | t + 1 => src pos % 256 + 256 * leDecode src (pos + 1) t

/-- Fuel-driven ceiling base-2 logarithm; `clog2Aux fuel n` computes
`Nat.clog 2 n` whenever `n ≤ 2 ^ fuel`. -/
def clog2Aux : Nat → Nat → Nat
  | 0, _ => 0
  | fuel + 1, n => if n ≤ 1 then 0 else clog2Aux fuel ((n + 1) / 2) + 1

/-- Exact-arithmetic model of `ceil(log(n)/log(2))` for every `n` that fits
in 64 bits (the argument is always an `unsigned long`, hence below 2^32). -/
def ceilLog2 (n : Nat) : Nat := clog2Aux 64 n

/-- The quantity `upperLimitBits = ceil(log(r-1) / log(2))` (winrandom.c line 90). -/
def upperLimitBits (r : Nat) : Nat := ceilLog2 (r - 1)

/-- The quantity `t = (long) ceil(upperLimitBits / 8)` — bytes per fetch
(winrandom.c line 91). -/
def bytesNeeded (bits : Nat) : Nat := (bits + 7) / 8

/-- Initial value of the process-wide continuous-test state:
`static unsigned long iContinousRndTest = 0L` (winrandom.c line 63). -/
def iContinousRndTestInit : Nat := 0

/-- Outcome of one iteration of the discard loop. -/
inductive StepOut where
  | fail (err : WinErr)
  | accept (c : Nat)
  | reject (c : Nat)
  deriving DecidableEq

/-- One iteration of the rejection loop body (winrandom.c lines 94-115):
fetch `t` bytes into a zeroed `c`; fail if `CryptGenRandom` fails; run the
FIPS 140-2 continuous test (`upperLimitBits > 15 && c == iContinousRndTest`)
and fail before updating the state if it trips; otherwise store `c` into the
state and accept iff `c < r`.  Returns the outcome and the value of
`iContinousRndTest` after the iteration. -/
def rangeStep (e : Entropy) (r t bits call pos st : Nat) : StepOut × Nat :=
  if !e.fillOk call then (.fail .generationFailed, st)
  else
    let c := leDecode e.byte pos t
    if 15 < bits ∧ c = st then (.fail .entropyTestFailed, st)
    else if c < r then (.accept c, c)
    else (.reject c, c)

/-- Per-call observable outcome: the Python-level result plus the number of
`CryptAcquireContext` and `CryptReleaseContext` calls performed, and the
final value of the `iContinousRndTest` static. -/
structure CallTrace where
  result : Except WinErr Nat
  acquired : Nat
  released : Nat
  testState : Nat
  deriving DecidableEq

/-- The `while(1)` discard loop of `winrandom_range` (winrandom.c 94-118),
run with `fuel` as an upper bound on iterations (`none` = fuel exhausted,
the real loop would keep running).  On the two failure exits the function
returns without `CryptReleaseContext` (released = 0, as in the C source,
which only releases after the loop breaks); on accept it releases once. -/
def rangeLoop (e : Entropy) (r t bits : Nat) : Nat → Nat → Nat → Nat → Option CallTrace
  | 0, _, _, _ => none
  | fuel + 1, pos, call, st =>
    match rangeStep e r t bits call pos st with
    | (.fail err, st1) => some ⟨.error err, 1, 0, st1⟩
    | (.accept c, st1) => some ⟨.ok c, 1, 1, st1⟩
    | (.reject _, st1) => rangeLoop e r t bits fuel (pos + t) (call + 1) st1

/-- Model of `winrandom_range` (winrandom.c lines 60-119), after a successful
`PyArg_ParseTuple(args, "l", &r)` (so `-2^31 ≤ m < 2^31`): reject
`r <= 1` (an unsigned comparison!), acquire a provider, then run the
discard loop with `st0` as the entering value of `iContinousRndTest`. -/
def winrandom_range (e : Entropy) (st0 : Nat) (m : Int) (fuel : Nat) :
    Option CallTrace :=
  let r := toULong m
  if r ≤ 1 then some ⟨.error .invalidRange, 0, 0, st0⟩
  else if !e.acquireOk then some ⟨.error .sourceUnavailable, 0, 0, st0⟩
  else rangeLoop e r (bytesNeeded (upperLimitBits r)) (upperLimitBits r) fuel 0 0 st0

/-- Observable outcome of `winrandom_bytes`. -/
structure BytesTrace where
  result : Except WinErr (List Nat)
  acquired : Nat
  released : Nat
  deriving DecidableEq

/-- Model of `winrandom_bytes` (winrandom.c lines 122-157): malloc the buffer,
acquire a provider, fill the buffer with one `CryptGenRandom` call and
build a Python bytes object from it.  Note the C function contains no
`CryptReleaseContext` call on any path. -/
def winrandom_bytes (e : Entropy) (mallocOk : Bool) (n : Nat) : BytesTrace :=
  if !mallocOk then ⟨.error .memoryError, 0, 0⟩
  else if !e.acquireOk then ⟨.error .sourceUnavailable, 0, 0⟩
  else if !e.fillOk 0 then ⟨.error .generationFailed, 1, 0⟩
  else ⟨.ok ((List.range n).map fun i => e.byte i % 256), 1, 0⟩

/-- Observable outcome of `winrandom_long`. -/
structure LongTrace where
  result : Except WinErr Nat
  acquired : Nat
  released : Nat
  deriving DecidableEq

/-- Model of `winrandom_long` (winrandom.c lines 160-182): acquire a provider, fill
`sizeof(unsigned long)` bytes into `pbRandomData`, return it as a Python
integer.  The C function contains no `CryptReleaseContext` call. -/
def winrandom_long (e : Entropy) : LongTrace :=
  if !e.acquireOk then ⟨.error .sourceUnavailable, 0, 0⟩
  else if !e.fillOk 0 then ⟨.error .generationFailed, 1, 0⟩
  else ⟨.ok (leDecode e.byte 0 sizeofUnsignedLong), 1, 0⟩

/-- Fuel-driven floor base-2 logarithm; `floorLog2Aux fuel n` computes
`Nat.log 2 n` whenever `n ≤ 2 ^ fuel`. -/
def floorLog2Aux : Nat → Nat → Nat
  | 0, _ => 0
  | fuel + 1, n => if n ≤ 1 then 0 else floorLog2Aux fuel (n / 2) + 1

/-- The notion the spec appeals to in claim C4: the minimum number of bits
required to represent the value `v` (for `v ≥ 1` this is
`floor(log2 v) + 1`).  This definition follows the words of the spec, for
comparison with `upperLimitBits`, which follows the C source. -/
def minBitsToRepresent (v : Nat) : Nat := floorLog2Aux 64 v + 1

-- a healthy entropy source with a varied byte stream
def eGood : Entropy := ⟨true, true, fun _ => true, fun i => (i + 3) % 251⟩

-- a healthy source that always delivers the byte 0x01
def eOnes : Entropy := ⟨true, true, fun _ => true, fun _ => 1⟩

-- a healthy source that always delivers the byte 0x00
def eZeros : Entropy := ⟨true, true, fun _ => true, fun _ => 0⟩

-- a source that acquires but whose CryptGenRandom calls all fail
def eNoFill : Entropy := ⟨true, true, fun _ => false, fun _ => 0⟩

-- a healthy source that always delivers the byte 0x03
def eThrees : Entropy := ⟨true, true, fun _ => true, fun _ => 3⟩

theorem clog2Aux_eq (fuel : Nat) :
    ∀ n : Nat, n ≤ 2 ^ fuel → clog2Aux fuel n = Nat.clog 2 n := by
  induction fuel with
  | zero =>
    intro n hn
    simp only [pow_zero] at hn
    simp [clog2Aux, Nat.clog_of_right_le_one hn]
  | succ fuel ih =>
    intro n hn
    by_cases h1 : n ≤ 1
    · simp [clog2Aux, h1, Nat.clog_of_right_le_one h1]
    · have h2 : 2 ≤ n := by omega
      have hrec : Nat.clog 2 n = Nat.clog 2 ((n + 2 - 1) / 2) + 1 :=
        Nat.clog_of_two_le (by norm_num) h2
      have hpow : 2 ^ (fuel + 1) = 2 * 2 ^ fuel := by
        rw [pow_succ]; ring
      have hle : (n + 1) / 2 ≤ 2 ^ fuel := by omega
      simp only [clog2Aux, h1, if_false]
      rw [ih _ hle, hrec]
      norm_num

theorem ceilLog2_eq {n : Nat} (h : n ≤ 2 ^ 64) : ceilLog2 n = Nat.clog 2 n :=
  clog2Aux_eq 64 n h

theorem floorLog2Aux_eq (fuel : Nat) :
    ∀ n : Nat, n ≤ 2 ^ fuel → floorLog2Aux fuel n = Nat.log 2 n := by
  induction fuel with
  | zero =>
    intro n hn
    simp only [pow_zero] at hn
    interval_cases n <;> simp [floorLog2Aux]
  | succ fuel ih =>
    intro n hn
    by_cases h1 : n ≤ 1
    · have : n = 0 ∨ n = 1 := by omega
      rcases this with h | h <;> simp [floorLog2Aux, h]
    · have h2 : 2 ≤ n := by omega
      have hrec : Nat.log 2 n = Nat.log 2 (n / 2) + 1 :=
        Nat.log_of_one_lt_of_le (by norm_num) h2
      have hpow : 2 ^ (fuel + 1) = 2 * 2 ^ fuel := by
        rw [pow_succ]; ring
      have hle : n / 2 ≤ 2 ^ fuel := by omega
      simp only [floorLog2Aux, h1, if_false]
      rw [ih _ hle, hrec]

theorem leDecode_lt (src : Nat → Nat) :
    ∀ (t pos : Nat), leDecode src pos t < 256 ^ t := by
  intro t
  induction t with
  | zero => intro pos; simp [leDecode]
  | succ t ih =>
    intro pos
    have h1 : src pos % 256 < 256 := Nat.mod_lt _ (by norm_num)
    have h2 := ih (pos + 1)
    have h3 : 256 ^ (t + 1) = 256 * 256 ^ t := by rw [pow_succ]; ring
    simp only [leDecode]
    omega

theorem leDecode_digits (v : Nat) :
    ∀ (t pos : Nat), leDecode (fun i => v / 256 ^ i) pos t = v / 256 ^ pos % 256 ^ t := by
  intro t
  induction t with
  | zero => intro pos; simp [leDecode, Nat.mod_one]
  | succ t ih =>
    intro pos
    have hdiv : v / 256 ^ (pos + 1) = v / 256 ^ pos / 256 := by
      rw [pow_succ, Nat.div_div_eq_div_mul]
    have hmul : (256 : Nat) ^ (t + 1) = 256 * 256 ^ t := by rw [pow_succ]; ring
    simp only [leDecode, ih, hdiv, hmul]
    exact (Nat.mod_mul).symm

theorem rangeStep_cases (e : Entropy) (r t bits call pos st : Nat) :
    (e.fillOk call = false ∧
       rangeStep e r t bits call pos st = (.fail .generationFailed, st)) ∨
    (e.fillOk call = true ∧ 15 < bits ∧ leDecode e.byte pos t = st ∧
       rangeStep e r t bits call pos st = (.fail .entropyTestFailed, st)) ∨
    (e.fillOk call = true ∧ ¬(15 < bits ∧ leDecode e.byte pos t = st) ∧
       leDecode e.byte pos t < r ∧
       rangeStep e r t bits call pos st =
         (.accept (leDecode e.byte pos t), leDecode e.byte pos t)) ∨
    (e.fillOk call = true ∧ ¬(15 < bits ∧ leDecode e.byte pos t = st) ∧
       ¬(leDecode e.byte pos t < r) ∧
       rangeStep e r t bits call pos st =
         (.reject (leDecode e.byte pos t), leDecode e.byte pos t)) := by
  by_cases hf : e.fillOk call
  · by_cases htest : 15 < bits ∧ leDecode e.byte pos t = st
    · exact Or.inr (Or.inl ⟨hf, htest.1, htest.2, by simp [rangeStep, hf, htest]⟩)
    · by_cases hlt : leDecode e.byte pos t < r
      · exact Or.inr (Or.inr (Or.inl ⟨hf, htest, hlt, by simp [rangeStep, hf, htest, hlt]⟩))
      · exact Or.inr (Or.inr (Or.inr ⟨hf, htest, hlt, by simp [rangeStep, hf, htest, hlt]⟩))
  · exact Or.inl ⟨by simpa using hf, by simp [rangeStep, hf]⟩

theorem rangeLoop_ok_lt (e : Entropy) (r t bits : Nat) :
    ∀ (fuel pos call st : Nat) (tr : CallTrace) (c : Nat),
      rangeLoop e r t bits fuel pos call st = some tr →
      tr.result = Except.ok c → c < r := by
  intro fuel
  induction fuel with
  | zero => intro pos call st tr c h _; simp [rangeLoop] at h
  | succ fuel ih =>
    intro pos call st tr c h hres
    rcases rangeStep_cases e r t bits call pos st with
      ⟨_, heq⟩ | ⟨_, _, _, heq⟩ | ⟨_, _, hlt, heq⟩ | ⟨_, _, _, heq⟩ <;>
      simp only [rangeLoop, heq, Option.some.injEq] at h
    · subst h; simp at hres
    · subst h; simp at hres
    · subst h
      simp only [Except.ok.injEq] at hres
      omega
    · exact ih _ _ _ _ _ h hres

theorem rangeLoop_no_test_fail (e : Entropy) (r t bits : Nat) (hb : bits < 16) :
    ∀ (fuel pos call st : Nat) (tr : CallTrace),
      rangeLoop e r t bits fuel pos call st = some tr →
      tr.result ≠ Except.error .entropyTestFailed := by
  intro fuel
  induction fuel with
  | zero => intro pos call st tr h; simp [rangeLoop] at h
  | succ fuel ih =>
    intro pos call st tr h
    rcases rangeStep_cases e r t bits call pos st with
      ⟨_, heq⟩ | ⟨_, hbits, _, heq⟩ | ⟨_, _, _, heq⟩ | ⟨_, _, _, heq⟩ <;>
      simp only [rangeLoop, heq, Option.some.injEq] at h
    · subst h; simp
    · omega
    · subst h; simp
    · exact ih _ _ _ _ h

theorem rangeLoop_ok_state (e : Entropy) (r t bits : Nat) :
    ∀ (fuel pos call st : Nat) (tr : CallTrace) (c : Nat),
      rangeLoop e r t bits fuel pos call st = some tr →
      tr.result = Except.ok c → tr.testState = c := by
  intro fuel
  induction fuel with
  | zero => intro pos call st tr c h _; simp [rangeLoop] at h
  | succ fuel ih =>
    intro pos call st tr c h hres
    rcases rangeStep_cases e r t bits call pos st with
      ⟨_, heq⟩ | ⟨_, _, _, heq⟩ | ⟨_, _, _, heq⟩ | ⟨_, _, _, heq⟩ <;>
      simp only [rangeLoop, heq, Option.some.injEq] at h
    · subst h; simp at hres
    · subst h; simp at hres
    · subst h
      simp only [Except.ok.injEq] at hres
      simpa using hres
    · exact ih _ _ _ _ _ h hres

theorem toULong_of_nonneg {m : Int} (h0 : 0 ≤ m) (h1 : m < 2 ^ 31) :
    (toULong m : Int) = m := by
  have hlt : m < 2 ^ ULONG_WIDTH := by
    have : (2 : Int) ^ 31 < 2 ^ ULONG_WIDTH := by norm_num [ULONG_WIDTH]
    omega
  unfold toULong
  rw [Int.emod_eq_of_lt h0 hlt]
  exact Int.toNat_of_nonneg h0

/-- C1: for every max > 1 (within the parseable range of a C long), whenever
`range(max)` returns successfully, the returned integer c satisfies
0 <= c < max; the rejection loop never returns a value >= max. -/
theorem range_result_in_range (m : Int) (e : Entropy) (st fuel : Nat)
    (tr : CallTrace) (c : Nat) (h1 : 1 < m) (h2 : m < 2 ^ 31)
    (h : winrandom_range e st m fuel = some tr)
    (hres : tr.result = Except.ok c) :
    0 ≤ (c : Int) ∧ (c : Int) < m := by
  refine ⟨Int.natCast_nonneg c, ?_⟩
  have hm : (toULong m : Int) = m := toULong_of_nonneg (by omega) h2
  unfold winrandom_range at h
  dsimp only at h
  split at h
  · rename_i hle
    obtain rfl := Option.some.inj h
    simp at hres
  · split at h
    · obtain rfl := Option.some.inj h
      simp at hres
    · have := rangeLoop_ok_lt e (toULong m) _ _ _ _ _ _ _ _ h hres
      omega

/-- Witness for C1 at max = 5 with a source delivering bytes 0x03:
the call returns 3, and indeed 0 <= 3 < 5. -/
theorem range_result_in_range_witness : 0 ≤ (3 : Int) ∧ (3 : Int) < 5 :=
  range_result_in_range 5 eThrees 0 1 ⟨.ok 3, 1, 1, 3⟩ 3
    (by decide) (by decide) (by decide) rfl

theorem range_two_eval (e : Entropy) (st fuel : Nat)
    (ha : e.acquireOk = true) (hf : e.fillOk 0 = true) (h1 : 1 ≤ fuel) :
    winrandom_range e st 2 fuel = some ⟨.ok 0, 1, 1, 0⟩ := by
  obtain ⟨fuel, rfl⟩ : ∃ k, fuel = k + 1 := ⟨fuel - 1, by omega⟩
  have hr : toULong 2 = 2 := by decide
  have hbits : upperLimitBits 2 = 0 := by decide
  have hbytes : bytesNeeded 0 = 0 := by decide
  have hc : leDecode e.byte 0 0 = 0 := rfl
  unfold winrandom_range
  rw [hr]
  dsimp only
  simp [ha, hbits, hbytes, rangeLoop, rangeStep, hf, hc]

/-- C10: range(2) computes bits_needed = 0 and bytes_needed = 0, fetches
zero random bytes, and deterministically returns 0 on the first loop
iteration: two runs over arbitrary (possibly different) entropy sources
return the same value 0. -/
theorem range_two_deterministic (e1 e2 : Entropy) (st1 st2 f1 f2 : Nat)
    (ha1 : e1.acquireOk = true) (ha2 : e2.acquireOk = true)
    (hf1 : e1.fillOk 0 = true) (hf2 : e2.fillOk 0 = true)
    (h1 : 1 ≤ f1) (h2 : 1 ≤ f2) :
    bytesNeeded (upperLimitBits (toULong 2)) = 0 ∧
    winrandom_range e1 st1 2 f1 = some ⟨.ok 0, 1, 1, 0⟩ ∧
    winrandom_range e1 st1 2 f1 = winrandom_range e2 st2 2 f2 := by
  have hA := range_two_eval e1 st1 f1 ha1 hf1 h1
  have hB := range_two_eval e2 st2 f2 ha2 hf2 h2
  exact ⟨by decide, hA, hA.trans hB.symm⟩

/-- Witness for C10: two runs over visibly different byte streams
(`eGood` delivers varied bytes, `eOnes` delivers 0x01 forever) with
different incoming test states and different fuel. -/
theorem range_two_deterministic_witness :
    bytesNeeded (upperLimitBits (toULong 2)) = 0 ∧
    winrandom_range eGood 7 2 1 = some ⟨.ok 0, 1, 1, 0⟩ ∧
    winrandom_range eGood 7 2 1 = winrandom_range eOnes 9 2 2 :=
  range_two_deterministic eGood eOnes 7 9 1 2 rfl rfl rfl rfl
    (by decide) (by decide)

/-- C3 (code bug): range(0) and range(1) do fail with the invalid-argument
error, but range(-5) does not: the argument is parsed into the unsigned
variable r, so -5 becomes 2^32 - 5, passes the `r <= 1` check, and the call
samples in the huge range [0, 2^32 - 5) — here it returns 16843009
(0x01010101) from a source delivering 0x01 bytes. -/
theorem range_negative_max_not_rejected :
    winrandom_range eOnes 0 0 1 = some ⟨.error .invalidRange, 0, 0, 0⟩ ∧
    winrandom_range eOnes 0 1 1 = some ⟨.error .invalidRange, 0, 0, 0⟩ ∧
    toULong (-5) = 4294967291 ∧
    winrandom_range eOnes 0 (-5) 1 = some ⟨.ok 16843009, 1, 1, 16843009⟩ := by
  refine ⟨by decide, by decide, by decide, by decide⟩

/-- C2 (code bug): `winrandom_long` and `winrandom_bytes` acquire a provider
handle and never release it, even on success; `winrandom_range` leaks the
handle on its generation-failure exit path (and, by the same return, on the
self-test-failure path, cf. `first_draw_can_trip`). -/
theorem handle_released_at_most_on_range_success :
    (winrandom_long eGood).result = .ok (leDecode eGood.byte 0 4) ∧
    (winrandom_long eGood).acquired = 1 ∧ (winrandom_long eGood).released = 0 ∧
    (winrandom_bytes eGood true 16).acquired = 1 ∧
    (winrandom_bytes eGood true 16).released = 0 ∧
    winrandom_range eNoFill 0 100 1 =
      some ⟨.error .generationFailed, 1, 0, 0⟩ := by
  refine ⟨by decide, by decide, by decide, by decide, by decide, by decide⟩

/-- C6: the continuous self-test trips (failing the call with the
entropy-test error) exactly when bits_needed is at least 16 and the freshly
drawn candidate is bit-identical to the stored previous candidate; with
bits_needed < 16 the call can never fail with the entropy-test error; and
after every candidate draw the stored state equals that candidate (on the
tripping path the C code returns before the assignment, but there the
candidate equals the stored value, so the state still equals the
candidate). -/
theorem continuous_test_characterization :
    (∀ (e : Entropy) (r t bits call pos st : Nat),
       (rangeStep e r t bits call pos st).1 = .fail .entropyTestFailed ↔
         e.fillOk call = true ∧ 16 ≤ bits ∧ leDecode e.byte pos t = st) ∧
    (∀ (e : Entropy) (r t bits call pos st : Nat), e.fillOk call = true →
       (rangeStep e r t bits call pos st).2 = leDecode e.byte pos t) ∧
    (∀ (e : Entropy) (r t bits fuel pos call st : Nat) (tr : CallTrace),
       rangeLoop e r t bits fuel pos call st = some tr → bits < 16 →
       tr.result ≠ Except.error .entropyTestFailed) ∧
    (∀ (e : Entropy) (r t bits fuel pos call st : Nat) (tr : CallTrace)
       (c : Nat), rangeLoop e r t bits fuel pos call st = some tr →
       tr.result = Except.ok c → tr.testState = c) := by
  refine ⟨?_, ?_, ?_, ?_⟩
  · intro e r t bits call pos st
    rcases rangeStep_cases e r t bits call pos st with
      ⟨hf, heq⟩ | ⟨hf, hb, hst, heq⟩ | ⟨hf, hn, _, heq⟩ | ⟨hf, hn, _, heq⟩ <;>
      rw [heq]
    · simp [hf]
    · simp only [StepOut.fail.injEq]
      exact ⟨fun _ => ⟨hf, by omega, hst⟩, fun _ => trivial⟩
    · simp only []
      constructor
      · intro hcontra; exact absurd hcontra (by simp)
      · intro ⟨_, hb16, hst⟩; exact absurd ⟨by omega, hst⟩ hn
    · simp only []
      constructor
      · intro hcontra; exact absurd hcontra (by simp)
      · intro ⟨_, hb16, hst⟩; exact absurd ⟨by omega, hst⟩ hn
  · intro e r t bits call pos st hf
    rcases rangeStep_cases e r t bits call pos st with
      ⟨hf0, _⟩ | ⟨_, _, hst, heq⟩ | ⟨_, _, _, heq⟩ | ⟨_, _, _, heq⟩
    · rw [hf0] at hf; exact absurd hf (by simp)
    · rw [heq]; exact hst.symm
    · rw [heq]
    · rw [heq]
  · intro e r t bits fuel pos call st tr h hb
    exact rangeLoop_no_test_fail e r t bits hb fuel pos call st tr h
  · intro e r t bits fuel pos call st tr c h hres
    exact rangeLoop_ok_state e r t bits fuel pos call st tr c h hres

/-- Witness for C6 at a concrete tripped step: bits = 20 >= 16 and the
drawn candidate 0x0101 = 257 equals the stored state 257, so the step
fails with the entropy-test error. -/
theorem continuous_test_characterization_witness :
    (rangeStep eOnes 100000 2 20 0 0 257).1 = .fail .entropyTestFailed :=
  (continuous_test_characterization.1 eOnes 100000 2 20 0 0 257).mpr
    ⟨rfl, by decide, by decide⟩

/-- C7 counterexample: the continuous-test state is initialized to 0, which
is an ordinary candidate value, not an out-of-band sentinel.  At process
start (state 0), the very first candidate of range(70000) (bits_needed =
17, bytes_needed = 3) drawn from an all-zero source is 0, equal to the
initial state, and the call fails with the entropy-test error — so the
first candidate CAN trip the self-test. -/
theorem first_draw_can_trip :
    iContinousRndTestInit = 0 ∧
    winrandom_range eZeros iContinousRndTestInit 70000 1 =
      some ⟨.error .entropyTestFailed, 1, 0, 0⟩ := by
  refine ⟨rfl, by decide⟩

/-- C7 amended: the state is initialized to the ordinary value 0 at process
start; the very first candidate draw of a process trips the self-test if
and only if bits_needed >= 16 and the candidate equals 0 (so a nonzero
first candidate never trips, but a zero first candidate at >= 16 bits
does). -/
theorem first_draw_trip_iff (e : Entropy) (r t bits call pos : Nat) :
    (rangeStep e r t bits call pos iContinousRndTestInit).1 =
        .fail .entropyTestFailed ↔
      e.fillOk call = true ∧ 16 ≤ bits ∧ leDecode e.byte pos t = 0 := by
  rcases rangeStep_cases e r t bits call pos iContinousRndTestInit with
    ⟨hf, heq⟩ | ⟨hf, hb, hst, heq⟩ | ⟨hf, hn, _, heq⟩ | ⟨hf, hn, _, heq⟩ <;>
    rw [heq]
  · simp [hf]
  · simp only [StepOut.fail.injEq]
    exact ⟨fun _ => ⟨hf, by omega, hst⟩, fun _ => trivial⟩
  · simp only []
    constructor
    · intro hcontra; exact absurd hcontra (by simp)
    · intro ⟨_, hb16, hst⟩; exact absurd ⟨by omega, hst⟩ hn
  · simp only []
    constructor
    · intro hcontra; exact absurd hcontra (by simp)
    · intro ⟨_, hb16, hst⟩; exact absurd ⟨by omega, hst⟩ hn

/-- Witness for the amended C7: a first draw delivering the nonzero
candidate 0x010101 at 17 bits does not trip the test. -/
theorem first_draw_trip_iff_witness :
    (rangeStep eOnes 70000 3 17 0 0 iContinousRndTestInit).1 ≠
      .fail .entropyTestFailed := by
  intro h
  have h2 := (first_draw_trip_iff eOnes 70000 3 17 0 0).mp h
  revert h2
  decide

/-- C8: for every n for which the buffer allocation and the CryptGenRandom
call succeed, bytes(n) returns exactly n bytes, each equal to the
corresponding byte of the entropy stream; in particular bytes(0) yields the
empty sequence without error. -/
theorem bytes_length_exact (e : Entropy) (n : Nat)
    (ha : e.acquireOk = true) (hf : e.fillOk 0 = true) :
    ∃ bs : List Nat, (winrandom_bytes e true n).result = Except.ok bs ∧
      bs.length = n ∧ (∀ i, i < n → bs.getD i 0 = e.byte i % 256) ∧
      (n = 0 → bs = []) := by
  refine ⟨(List.range n).map fun i => e.byte i % 256, ?_, ?_, ?_, ?_⟩
  · simp [winrandom_bytes, ha, hf]
  · simp
  · intro i hi
    rw [List.getD_eq_getElem?_getD]
    simp [List.getElem?_range hi, hi]
  · intro h; subst h; simp

/-- Witness for C8 at n = 3 over the varied source `eGood`. -/
theorem bytes_length_exact_witness :
    ∃ bs : List Nat, (winrandom_bytes eGood true 3).result = Except.ok bs ∧
      bs.length = 3 ∧ (∀ i, i < 3 → bs.getD i 0 = eGood.byte i % 256) ∧
      (3 = 0 → bs = []) :=
  bytes_length_exact eGood 3 rfl rfl

/-- C9: long() takes no range argument; on success it returns exactly
`sizeof(unsigned long)` = 4 fetched bytes reinterpreted (little-endian) as
an unsigned integer.  Every successful result is below 2^32, and every
value below 2^32 is attainable from a suitable entropy stream, so the
output has the full declared native width and no constrained range. -/
theorem long_full_width :
    (∀ e : Entropy, e.acquireOk = true → e.fillOk 0 = true →
       (winrandom_long e).result =
         Except.ok (leDecode e.byte 0 sizeofUnsignedLong)) ∧
    (∀ (e : Entropy) (c : Nat),
       (winrandom_long e).result = Except.ok c → c < 2 ^ ULONG_WIDTH) ∧
    (∀ v : Nat, v < 2 ^ ULONG_WIDTH →
       (winrandom_long ⟨true, true, fun _ => true, fun i => v / 256 ^ i⟩).result =
         Except.ok v) := by
  refine ⟨?_, ?_, ?_⟩
  · intro e ha hf
    simp [winrandom_long, ha, hf]
  · intro e c h
    unfold winrandom_long at h
    split at h
    · simp at h
    · split at h
      · simp at h
      · simp only [Except.ok.injEq] at h
        subst h
        have hbound := leDecode_lt e.byte sizeofUnsignedLong 0
        have : (256 : Nat) ^ sizeofUnsignedLong = 2 ^ ULONG_WIDTH := by decide
        omega
  · intro v hv
    have hd := leDecode_digits v sizeofUnsignedLong 0
    have hmod : v / 256 ^ 0 % 256 ^ sizeofUnsignedLong = v := by
      have : (256 : Nat) ^ sizeofUnsignedLong = 2 ^ ULONG_WIDTH := by decide
      rw [pow_zero, Nat.div_one, Nat.mod_eq_of_lt (by omega)]
    simp only [winrandom_long]
    norm_num [Entropy.acquireOk]
    rw [hd, hmod]

/-- Witness for C9: a concrete stream encoding 123456789 little-endian is
decoded back to 123456789 by long(). -/
theorem long_full_width_witness :
    (winrandom_long
        ⟨true, true, fun _ => true, fun i => 123456789 / 256 ^ i⟩).result =
      Except.ok 123456789 :=
  long_full_width.2.2 123456789 (by norm_num [ULONG_WIDTH])

theorem clog2_eq_log2_succ {v : Nat} (h2 : 2 ≤ v)
    (hnp : v ≠ 2 ^ Nat.clog 2 v) : Nat.clog 2 v = Nat.log 2 v + 1 := by
  have hv0 : v ≠ 0 := by omega
  have hup : v ≤ 2 ^ Nat.clog 2 v :=
    (Nat.le_pow_iff_clog_le (by norm_num)).mpr le_rfl
  have hlow : 2 ^ (Nat.clog 2 v - 1) < v :=
    Nat.pow_pred_clog_lt_self (by norm_num) (by omega)
  have h1 : Nat.clog 2 v - 1 ≤ Nat.log 2 v := by
    rw [← Nat.pow_le_iff_le_log (by norm_num) hv0]
    omega
  have h2l : Nat.log 2 v < Nat.clog 2 v := by
    by_contra hcon
    push_neg at hcon
    have hp : (2 : Nat) ^ Nat.clog 2 v ≤ 2 ^ Nat.log 2 v :=
      Nat.pow_le_pow_right (by norm_num) hcon
    have hlog := Nat.pow_log_le_self 2 hv0
    omega
  omega

/-- C4 counterexample: at max = 5 the formula gives
bits_needed = ceil(log2(4)) = 2, but representing the largest value below
max, namely 4 = 0b100, takes 3 bits. -/
theorem bits_needed_not_min_bits :
    upperLimitBits 5 = 2 ∧ minBitsToRepresent (5 - 1) = 3 ∧
    upperLimitBits 5 ≠ minBitsToRepresent (5 - 1) := by decide

/-- C4 amended: bits_needed = ceil(log2(max - 1)) equals the minimum number
of bits required to represent max - 1 exactly when max - 1 is not a power
of two; when max - 1 is a power of two (including max = 2) the formula
yields one bit fewer than that minimum. -/
theorem bits_needed_vs_min_bits (r : Nat) (h2 : 2 ≤ r) (h32 : r < 2 ^ 32) :
    (r - 1 = 2 ^ upperLimitBits r →
       minBitsToRepresent (r - 1) = upperLimitBits r + 1) ∧
    (r - 1 ≠ 2 ^ upperLimitBits r →
       minBitsToRepresent (r - 1) = upperLimitBits r) := by
  have hble : r - 1 ≤ 2 ^ 64 := by
    have : (2 : Nat) ^ 32 ≤ 2 ^ 64 := by norm_num
    omega
  have hclog : upperLimitBits r = Nat.clog 2 (r - 1) := ceilLog2_eq hble
  have hlog : minBitsToRepresent (r - 1) = Nat.log 2 (r - 1) + 1 := by
    unfold minBitsToRepresent
    rw [floorLog2Aux_eq 64 _ hble]
  constructor
  · intro hpow
    rw [hclog] at hpow ⊢
    rw [hlog]
    have hlp : Nat.log 2 (r - 1) = Nat.clog 2 (r - 1) := by
      conv_lhs => rw [hpow]
      rw [Nat.log_pow (by norm_num)]
    omega
  · intro hnp
    rw [hclog] at hnp ⊢
    rw [hlog]
    by_cases hv : 2 ≤ r - 1
    · have := clog2_eq_log2_succ hv hnp
      omega
    · have hv1 : r - 1 = 1 := by omega
      rw [hv1, Nat.clog_one_right] at hnp
      simp at hnp

/-- Witness for the amended C4: at max = 5 (max - 1 = 4 a power of two) the
formula is one below the minimum bit count; at max = 6 (max - 1 = 5 not a
power of two) they agree. -/
theorem bits_needed_vs_min_bits_witness :
    minBitsToRepresent (5 - 1) = upperLimitBits 5 + 1 ∧
    minBitsToRepresent (6 - 1) = upperLimitBits 6 :=
  ⟨(bits_needed_vs_min_bits 5 (by norm_num) (by norm_num)).1 (by decide),
   (bits_needed_vs_min_bits 6 (by norm_num) (by norm_num)).2 (by decide)⟩

/-- C5 counterexample: at max = 3 one byte is fetched, the sample space has
2^8 = 256 values and 256 is not below 2 * 3 = 6 (indeed 253 of the 256
values are rejected, a per-iteration rejection probability of 253/256,
well above 0.5). -/
theorem sample_space_not_lt_twice_max :
    bytesNeeded (upperLimitBits 3) = 1 ∧
    ¬ 2 ^ (8 * bytesNeeded (upperLimitBits 3)) < 2 * 3 := by decide

/-- C5 amended: because bytes (not bits) are the fetch unit, the guaranteed
bound is 2^(8 * bytes_needed) < 256 * max, so at least 1 in 256 of the
sample space is accepted: the number of rejected values (the truncated
difference 2^(8 * bytes_needed) - max) is less than 255/256 of the sample
space, i.e. each iteration is rejected with probability below 255/256, not
below 0.5. -/
theorem sample_space_lt_256_max (r : Nat) (h2 : 2 ≤ r) (h32 : r < 2 ^ 32) :
    2 ^ (8 * bytesNeeded (upperLimitBits r)) < 256 * r ∧
    256 * (2 ^ (8 * bytesNeeded (upperLimitBits r)) - r) <
      255 * 2 ^ (8 * bytesNeeded (upperLimitBits r)) := by
  have hble : r - 1 ≤ 2 ^ 64 := by
    have : (2 : Nat) ^ 32 ≤ 2 ^ 64 := by norm_num
    omega
  have hclog : upperLimitBits r = Nat.clog 2 (r - 1) := ceilLog2_eq hble
  have hmain : 2 ^ (8 * bytesNeeded (upperLimitBits r)) < 256 * r := by
    by_cases hr2 : r = 2
    · subst hr2; decide
    · have hv : 2 ≤ r - 1 := by omega
      have hlow : 2 ^ (Nat.clog 2 (r - 1) - 1) < r - 1 :=
        Nat.pow_pred_clog_lt_self (by norm_num) (by omega)
      have hsplit : Nat.clog 2 (r - 1) = Nat.clog 2 (r - 1) - 1 + 1 := by
        have hpos : 0 < Nat.clog 2 (r - 1) := by
          rw [← Nat.pow_lt_iff_lt_clog (by norm_num)]
          simpa using hv
        omega
      have hbits_bound : 2 ^ upperLimitBits r < 2 * (r - 1) := by
        rw [hclog, hsplit, pow_succ]
        omega
      have ht : 8 * bytesNeeded (upperLimitBits r) ≤ upperLimitBits r + 7 := by
        unfold bytesNeeded
        omega
      have hpow : 2 ^ (8 * bytesNeeded (upperLimitBits r)) ≤
          2 ^ (upperLimitBits r + 7) :=
        Nat.pow_le_pow_right (by norm_num) ht
      have hexp : (2 : Nat) ^ (upperLimitBits r + 7) =
          2 ^ upperLimitBits r * 128 := by
        rw [pow_add]; norm_num
      omega
  refine ⟨hmain, ?_⟩
  have hS : 1 ≤ 2 ^ (8 * bytesNeeded (upperLimitBits r)) :=
    Nat.one_le_two_pow
  omega

/-- Witness for the amended C5 at max = 200 (the spec section 8 example):
the sample space 256 is below 256 * 200, and the 56 rejected values are
fewer than 255/256 of the space. -/
theorem sample_space_lt_256_max_witness :
    2 ^ (8 * bytesNeeded (upperLimitBits 200)) < 256 * 200 ∧
    256 * (2 ^ (8 * bytesNeeded (upperLimitBits 200)) - 200) <
      255 * 2 ^ (8 * bytesNeeded (upperLimitBits 200)) :=
  sample_space_lt_256_max 200 (by norm_num) (by norm_num)

